import Mathlib

/-!
# Verification of the easyclipper audio transform & timeline pipeline

Shallow embedding (over `ℚ` for JS floats, `ℤ`/`ℕ` for integer-valued JS
numbers) of the audio pipeline of the easyclipper repository:

* the WAV codec (`audioBufferToWav` in `lib/audio-utils`),
* the WSOLA time stretcher (`timeStretchWSEW` in `src/App.tsx`),
* the per-segment speed dispatch (`applyMultipleSpeedSegments` in `src/App.tsx`),
* cross-timeline time mapping (`mapTimeThroughMultipleSpeeds` in `src/App.tsx`),
* the chunk planner (chunk window loop in `processing-screen`),
* caption display grouping (`chunkCaptionsSimple` in `src/App.tsx`),
* speed-edit insertion (`hasOverlap` / `applySpeedAdjustment` in `src/App.tsx`),
* the transcription orchestrator's cooperative cancellation, as a small-step
  state machine.

JS `Math.round` is round-half-up (`⌊x + 1/2⌋`); `DataView.setInt16` truncates
toward zero and wraps modulo 2^16; out-of-range typed-array writes are no-ops.
-/

/-- JS `Math.round`: round half toward positive infinity. -/
def jsRound (x : ℚ) : ℤ := ⌊x + 1/2⌋

/-- Truncation toward zero, the integer conversion used by `DataView.setInt16`. -/
def ratTrunc (x : ℚ) : ℤ := if 0 ≤ x then ⌊x⌋ else ⌈x⌉

/-- A JS number: either a finite value or one of the non-finite values.
Only the speed-edit rate field can be non-finite in the modelled code paths. -/
inductive JsNum where
  | fin : ℚ → JsNum
  | posInf : JsNum
  | negInf : JsNum
  | nan : JsNum
deriving DecidableEq

/-- JS `Number.isFinite`. -/
def JsNum.isFinite : JsNum → Bool
  | .fin _ => true
  | _ => false

/-! ## WavCodec (`audioBufferToWav`, `lib/audio-utils`)

Source, per sample:
`const sample = Math.max(-1, Math.min(1, data[channel][i]))`
`view.setInt16(offset, sample < 0 ? sample * 0x8000 : sample * 0x7FFF, true)`
-/

/-- Clamp-and-scale of one float sample, translated from `audioBufferToWav`. -/
def wavScaleSample (x : ℚ) : ℚ :=
  let sample := max (-1) (min 1 x)
  if sample < 0 then sample * 0x8000 else sample * 0x7FFF

/-- `DataView.setInt16(_, v, true)`: truncate toward zero, wrap modulo 2^16,
store little-endian (low byte first). -/
def toInt16Bytes (v : ℚ) : List ℕ :=
  let n := ratTrunc v
  let u := (n % 65536).toNat
  [u % 256, u / 256]

/-- The two data bytes `audioBufferToWav` writes for one float sample. -/
def wavSampleBytes (x : ℚ) : List ℕ := toInt16Bytes (wavScaleSample x)

/-- The `data` sub-chunk byte stream of `audioBufferToWav`: for each frame
index, the channels' samples interleaved, each as a little-endian int16. -/
def wavDataBytes (channels : List (List ℚ)) : List ℕ :=
  let length := (channels.headD []).length
  (List.range length).flatMap (fun i =>
    channels.flatMap (fun ch => wavSampleBytes (ch.getD i 0)))

/-- Reading back a little-endian int16 from two bytes (two's complement). -/
def decodeInt16 (bytes : List ℕ) : ℤ :=
  let u := bytes.getD 0 0 + 256 * bytes.getD 1 0
  if u < 32768 then (u : ℤ) else (u : ℤ) - 65536

/-- Modelled from the spec, §4.2 scaling policy: each float sample is clamped
to [-1, 1]; negative samples scale by 32768, non-negative samples by 32767. -/
def specScalePolicy (x : ℚ) : ℚ :=
  let c := max (-1) (min 1 x)
  if c < 0 then c * 32768 else c * 32767

/-! ## TimeStretcher (`timeStretchWSEW`, `src/App.tsx`)

The output is a `Float32Array` of fixed size `Math.round(input.length / rate)`;
we model it as an `Array ℚ` of that size. JS typed-array reads out of range
yield `undefined` (then `NaN` in arithmetic); writes out of range are no-ops.
We model out-of-range reads as `0` and out-of-range writes as no-ops; none of
the proved statements depend on out-of-range read values. The `while` loop is
modelled with fuel `outputLength + 1`; whenever `hopSize ≥ 1` (every sample
rate ≥ 17 Hz) the fuel is never exhausted, since `outputPos` grows by
`hopSize` per iteration and the loop guard requires
`outputPos < outputLength - windowSize`. -/

/-- Read `l[i]` as JS would inside the in-range loops (out of range → 0). -/
def listGet (l : List ℚ) (i : ℤ) : ℚ := if 0 ≤ i then l.getD i.toNat 0 else 0

/-- Read `a[i]` of a typed array (out of range → 0, see module comment). -/
def arrGet (a : Array ℚ) (i : ℤ) : ℚ := if 0 ≤ i then a.getD i.toNat 0 else 0

/-- Write `a[i] = v` on a typed array: out-of-range writes are no-ops. -/
def arrSet (a : Array ℚ) (i : ℤ) (v : ℚ) : Array ℚ :=
  if 0 ≤ i then a.setD i.toNat v else a

/-- The integers from `s` to `e` inclusive, in ascending order. -/
def intRange (s e : ℤ) : List ℤ :=
  (List.range (e + 1 - s).toNat).map (fun (i : ℕ) => s + (i : ℤ))

/-- `corr > bestCorr` with `bestCorr` initialised to `-Infinity` (`none`). -/
def beats (c : ℚ) : Option ℚ → Bool
  | none => true
  | some b => decide (b < c)

/-- One candidate of the WSOLA search scan:
`if (corr > bestCorr) { bestCorr = corr; bestOffset = offset }`. -/
def fbStep (score : ℤ → ℚ) (best : ℤ × Option ℚ) (o : ℤ) : ℤ × Option ℚ :=
  if beats (score o) best.2 then (o, some (score o)) else best

/-- The WSOLA search loop of `timeStretchWSEW`: scan offsets
`searchStart..searchEnd` in ascending order, starting from
`bestOffset = 0, bestCorr = -Infinity`, replacing the incumbent only on a
strictly greater score. -/
def findBestOffset (searchStart searchEnd : ℤ) (score : ℤ → ℚ) : ℤ :=
  ((intRange searchStart searchEnd).foldl (fbStep score)
    ((0 : ℤ), (none : Option ℚ))).1

/-- The correlation score of one candidate offset: dot product of the
candidate's leading overlap span with the last written hop-sized span. -/
def corrAt (input : List ℚ) (out : Array ℚ) (outputPos hopSize outputLength : ℤ)
    (offset : ℤ) : ℚ :=
  let overlapSize := min hopSize (min ((input.length : ℤ) - offset)
    (outputLength - outputPos))
  (List.range overlapSize.toNat).foldl
    (fun c i => c + listGet input (offset + i) * arrGet out (outputPos - hopSize + i)) 0

/-- The mutable state of the `timeStretchWSEW` while loop. -/
structure WsewState where
  out : Array ℚ
  outputPos : ℤ
  inputPos : ℤ

/-- One iteration of the `timeStretchWSEW` while loop: search, crossfade the
overlap, copy the non-overlapping remainder, advance the cursors. -/
def wsewBody (input : List ℚ) (rate : ℚ) (hopSize searchRange windowSize outputLength : ℤ)
    (st : WsewState) : WsewState :=
  let searchStart := max 0 (st.inputPos - searchRange)
  let searchEnd := min ((input.length : ℤ) - windowSize) (st.inputPos + searchRange)
  let bestOffset := findBestOffset searchStart searchEnd
    (corrAt input st.out st.outputPos hopSize outputLength)
  let overlapSize := min hopSize (min ((input.length : ℤ) - bestOffset)
    (outputLength - st.outputPos))
  let out1 := (List.range overlapSize.toNat).foldl (fun a i =>
    arrSet a (st.outputPos + i)
      (arrGet a (st.outputPos + i) * (1 - (i : ℚ) / (overlapSize : ℚ)) +
        listGet input (bestOffset + i) * ((i : ℚ) / (overlapSize : ℚ)))) st.out
  let copySize := min hopSize (min ((input.length : ℤ) - bestOffset - overlapSize)
    (outputLength - st.outputPos - overlapSize))
  let out2 := (List.range copySize.toNat).foldl (fun a i =>
    arrSet a (st.outputPos + overlapSize + i)
      (listGet input (bestOffset + overlapSize + i))) out1
  { out := out2
    outputPos := st.outputPos + hopSize
    inputPos := jsRound (((st.outputPos + hopSize : ℤ) : ℚ) * rate) }

/-- The `timeStretchWSEW` while loop, with fuel (see module comment). -/
def wsewLoop (input : List ℚ) (rate : ℚ) (hopSize searchRange windowSize outputLength : ℤ) :
    ℕ → WsewState → WsewState
  | 0, st => st
  | fuel + 1, st =>
    if st.outputPos < outputLength - windowSize ∧
        st.inputPos < (input.length : ℤ) - windowSize then
      wsewLoop input rate hopSize searchRange windowSize outputLength fuel
        (wsewBody input rate hopSize searchRange windowSize outputLength st)
    else st

/-- WSOLA time stretching, translated from `timeStretchWSEW` in `src/App.tsx`. -/
def timeStretchWSEW (input : List ℚ) (rate : ℚ) (sampleRate : ℕ) : Array ℚ :=
  let windowSize := jsRound ((30 : ℚ) / 1000 * (sampleRate : ℚ))
  let hopSize := jsRound ((windowSize : ℚ) / 2)
  let searchRange := jsRound ((windowSize : ℚ) / 4)
  let outputLength := jsRound ((input.length : ℚ) / rate)
  let out0 : Array ℚ := Array.mkArray outputLength.toNat 0
  let firstWindow := min windowSize (min (input.length : ℤ) outputLength)
  let out1 := (List.range firstWindow.toNat).foldl
    (fun a i => arrSet a (i : ℤ) (listGet input (i : ℤ))) out0
  let st0 : WsewState :=
    { out := out1, outputPos := hopSize, inputPos := jsRound ((hopSize : ℚ) * rate) }
  let st := wsewLoop input rate hopSize searchRange windowSize outputLength
    (outputLength.toNat + 1) st0
  let remaining := min ((input.length : ℤ) - st.inputPos) (outputLength - st.outputPos)
  if 0 < remaining ∧ st.outputPos < outputLength ∧ st.inputPos < (input.length : ℤ) then
    (List.range remaining.toNat).foldl (fun a i =>
      if st.outputPos + i < outputLength ∧ st.inputPos + i < (input.length : ℤ) then
        arrSet a (st.outputPos + i) (listGet input (st.inputPos + i))
      else a) st.out
  else st.out

/-- `Number.isFinite(xf.rate) && xf.rate > 0 ? xf.rate : 1`, the rate
sanitisation of `applyMultipleSpeedSegments` and `mapTimeThroughMultipleSpeeds`. -/
def sanitizeRate : JsNum → ℚ
  | .fin q => if 0 < q then q else 1
  | _ => 1

/-- The per-segment speed dispatch of `applyMultipleSpeedSegments`: sanitise
the rate, then stretch the windowed sub-range (`middle`) only when the
sanitised rate differs from 1 and the window is non-empty, else push the
segment through unchanged. -/
def processSpeedSegment (middle : List ℚ) (rawRate : JsNum) (sr : ℕ) : List ℚ :=
  let rate := sanitizeRate rawRate
  if rate ≠ 1 ∧ middle.length ≠ 0 then (timeStretchWSEW middle rate sr).toList
  else middle

/-! ## TransformPipeline time mapping (`mapTimeThroughMultipleSpeeds`, `src/App.tsx`) -/

/-- A Speed transform: `{ kind: 'speed', startSec, endSec, rate }`. -/
structure SpeedXform where
  startSec : ℚ
  endSec : ℚ
  rate : JsNum

/-- The loop of `mapTimeThroughMultipleSpeeds` over the sorted transforms.
`currentTime` never changes in the source (the assignment in the final branch
is `currentTime = currentTime`), so only the accumulated `offset` is threaded.
`ensureAscending` is the `(min, max)` normalisation from the source. -/
def mapTimeGo (t : ℚ) : ℚ → List SpeedXform → ℚ
  | offset, [] => offset + t
  | offset, xf :: rest =>
    let rate := sanitizeRate xf.rate
    let startSec := min xf.startSec xf.endSec
    let endSec := max xf.startSec xf.endSec
    if t ≤ startSec then offset + t
    else if t ≤ endSec then offset + startSec + (t - startSec) / rate
    else mapTimeGo t (offset + startSec + (endSec - startSec) / rate - endSec) rest

/-- `[...speedTransforms].sort((a, b) => a.startSec - b.startSec)`. -/
def sortSpeeds (l : List SpeedXform) : List SpeedXform :=
  l.mergeSort (fun a b => a.startSec ≤ b.startSec)

/-- Cross-timeline time mapping, translated from `mapTimeThroughMultipleSpeeds`
in `src/App.tsx`. -/
def mapTimeThroughMultipleSpeeds (t : ℚ) (l : List SpeedXform) : ℚ :=
  if l.isEmpty then t else mapTimeGo t 0 (sortSpeeds l)

/-! ## ChunkPlanner (chunk loop in `processing-screen`)

`const chunkDuration = totalDuration / numChunks`
`for (let i = 0; i < numChunks; i++) { startTime = i * chunkDuration;`
`endTime = Math.min((i + 1) * chunkDuration, totalDuration) }` -/

/-- The chunk-window planning loop of the processing screen. -/
def planChunks (totalDuration : ℚ) (numChunks : ℕ) : List (ℚ × ℚ) :=
  let chunkDuration := totalDuration / (numChunks : ℚ)
  (List.range numChunks).map (fun (i : ℕ) =>
    ((i : ℚ) * chunkDuration, min (((i : ℚ) + 1) * chunkDuration) totalDuration))

/-- `Math.max(2, Math.floor(numChunks || 2))` from `handleStart`: the requested
chunk count is sanitised, never rejected. The `numChunks` state is always a
finite number (`Number(e.target.value) || 2`), so the argument is a `ℚ`;
`0` (and `NaN`, which that state cannot hold) is falsy and becomes 2. -/
def sanitizeNumChunks (raw : ℚ) : ℤ :=
  max 2 ⌊if raw = 0 then (2 : ℚ) else raw⌋

/-! ## Caption display grouping (`chunkCaptionsSimple`, `src/App.tsx`) -/

/-- One transcribed word with its time range. -/
structure Caption where
  text : String
  startMs : ℚ
  endMs : ℚ
  confidence : Option ℚ
deriving Inhabited, DecidableEq

/-- One display group: an inclusive index range over the caption list plus its
time span, as built by `chunkCaptionsSimple`. -/
structure CapChunk where
  start : ℕ
  «end» : ℕ
  startMs : ℚ
  endMs : ℚ
deriving DecidableEq

/-- The sentence terminator used by `chunkCaptionsSimple`. -/
def periodStr : String := "."

/-- `word.endsWith('.') || word === '.'`. -/
def endsWithPeriod (word : String) : Bool :=
  word.endsWith periodStr || word == periodStr

/-- The scanning loop of `chunkCaptionsSimple`: `i` is the loop index, `start`
the first index of the open group, `charCount` the accumulated characters
(`charCount += spaceNeeded + wordLength` happens before the close test).
After the loop, the remaining words form the final group. -/
def chunkCaptionsGo (caps : List Caption) (mn mx : ℤ) (i start : ℕ)
    (charCount : ℤ) : List CapChunk :=
  if h : i < caps.length then
    let word := (caps.getD i default).text
    let cc := charCount + (if start < i then 1 else 0) + (word.length : ℤ)
    if (endsWithPeriod word ∧ mn ≤ cc) ∨ mx ≤ cc then
      ⟨start, i, (caps.getD start default).startMs, (caps.getD i default).endMs⟩ ::
        chunkCaptionsGo caps mn mx (i + 1) (i + 1) 0
    else
      chunkCaptionsGo caps mn mx (i + 1) start cc
  else if start < caps.length then
    [⟨start, caps.length - 1, (caps.getD start default).startMs,
      (caps.getD (caps.length - 1) default).endMs⟩]
  else []
termination_by caps.length - i

/-- Sentence-based caption grouping, translated from `chunkCaptionsSimple` in
`src/App.tsx`. -/
def chunkCaptionsSimple (caps : List Caption) (mn mx : ℤ) : List CapChunk :=
  if caps.length = 0 then [] else chunkCaptionsGo caps mn mx 0 0 0

/-! ## Speed-edit insertion (`hasOverlap` / `applySpeedAdjustment`, `src/App.tsx`) -/

/-- A persisted speed edit: `{ id, startIdx, endIdx, rate }` with inclusive
word indices into the caption timeline. -/
structure SpeedEdit where
  id : String
  startIdx : ℕ
  endIdx : ℕ
  rate : ℚ
deriving DecidableEq

/-- A transform of the pipeline: `Speed{startSec, endSec, rate}` or
`Trim{startPct, endPct}`. -/
inductive Transform where
  | speed (startSec endSec rate : ℚ) : Transform
  | trim (startPct endPct : ℚ) : Transform
deriving DecidableEq

/-- `t.kind === 'speed'`. -/
def Transform.isSpeed : Transform → Bool
  | .speed _ _ _ => true
  | .trim _ _ => false

/-- Translated from `hasOverlap` in `src/App.tsx`:
`speedEdits.some(edit => { if (excludeId && edit.id === excludeId) return false;`
`return !(endIdx < edit.startIdx || startIdx > edit.endIdx) })`. -/
def hasOverlap (edits : List SpeedEdit) (startIdx endIdx : ℕ)
    (excludeId : Option String) : Bool :=
  edits.any (fun e =>
    match excludeId with
    | some ex =>
      if e.id = ex then false
      else !(decide (endIdx < e.startIdx) || decide (startIdx > e.endIdx))
    | none => !(decide (endIdx < e.startIdx) || decide (startIdx > e.endIdx)))

/-- The interactive state mutated by `applySpeedAdjustment`. -/
structure AppState where
  speedEdits : List SpeedEdit
  transforms : List Transform
  subclipSpeedSelection : Option (ℕ × ℕ)

/-- Translated from `applySpeedAdjustment` in `src/App.tsx`. The early-return
guards on missing buffer/selection are modelled as preconditions by passing
the selection values as arguments; `newId` stands for the generated
`speed-${Date.now()}` id. On overlap the function alerts and returns before
any `set*` call, leaving the state untouched; otherwise it appends the new
edit and rebuilds the speed transforms from all edits. -/
def applySpeedAdjustment (captionsData : List Caption) (selectedRangeStart : ℕ)
    (sel : ℕ × ℕ) (speedMultiplier : ℚ) (newId : String) (st : AppState) :
    AppState :=
  let startIdx := selectedRangeStart + sel.1
  let endIdx := selectedRangeStart + sel.2
  if hasOverlap st.speedEdits startIdx endIdx none then st
  else
    let baseStartSec := (captionsData.getD selectedRangeStart default).startMs / 1000
    let newEdit : SpeedEdit := ⟨newId, startIdx, endIdx, speedMultiplier⟩
    let newEdits := st.speedEdits ++ [newEdit]
    { speedEdits := newEdits
      transforms := st.transforms.filter (fun t => !t.isSpeed) ++
        newEdits.map (fun e => Transform.speed
          ((captionsData.getD e.startIdx default).startMs / 1000 - baseStartSec)
          ((captionsData.getD e.endIdx default).endMs / 1000 - baseStartSec)
          e.rate)
      subclipSpeedSelection := none }

/-! ## TranscriptionOrchestrator cancellation (`processing-screen`)

The `run()` async function is single-threaded JS: the cancellation flag can
only be observed to change at suspension points. We model the relevant control
flow as a small-step relation: the loop-top check (`if (cancelled ||`
`cancelledRef.current) return`), the two external phases of a chunk (which,
once started, always run to completion — cancellation never preempts them),
and the finalisation check guarding `onComplete`. The environment may set the
flag at any point (`cancel`); nothing ever unsets it during a run. Observable
events record a chunk iteration beginning and the completion callback firing. -/

/-- Program counter of the orchestrator's `run()` loop. -/
inductive OrchPC where
  | loopCheck (i : ℕ)
  | resampling (i : ℕ)
  | transcribing (i : ℕ)
  | finalize
  | done
deriving DecidableEq

/-- Observable events of a run. -/
inductive OrchEvent where
  | chunkStarted (i : ℕ)
  | completed
deriving DecidableEq

/-- Orchestrator state: cancellation flag, program counter, event log. -/
structure OrchState where
  cancelled : Bool
  pc : OrchPC
  events : List OrchEvent

/-- One atomic step of the orchestrator run over `n` chunks, or of its
environment (setting the cancellation flag). -/
inductive OrchStep (n : ℕ) : OrchState → OrchState → Prop where
  | cancel (s : OrchState) : OrchStep n s { s with cancelled := true }
  | loopCheck_cancelled (s : OrchState) (i : ℕ) :
      s.pc = .loopCheck i → s.cancelled = true →
      OrchStep n s { s with pc := .done }
  | loopCheck_start (s : OrchState) (i : ℕ) :
      s.pc = .loopCheck i → s.cancelled = false → i < n →
      OrchStep n s { s with pc := OrchPC.resampling i, events := s.events ++ [OrchEvent.chunkStarted i] }
  | loopCheck_exit (s : OrchState) (i : ℕ) :
      s.pc = .loopCheck i → s.cancelled = false → ¬ i < n →
      OrchStep n s { s with pc := .finalize }
  | resample_done (s : OrchState) (i : ℕ) :
      s.pc = .resampling i → OrchStep n s { s with pc := .transcribing i }
  | transcribe_done (s : OrchState) (i : ℕ) :
      s.pc = .transcribing i → OrchStep n s { s with pc := .loopCheck (i + 1) }
  | finalize_cancelled (s : OrchState) :
      s.pc = .finalize → s.cancelled = true →
      OrchStep n s { s with pc := .done }
  | finalize_complete (s : OrchState) :
      s.pc = .finalize → s.cancelled = false →
      OrchStep n s { s with pc := OrchPC.done, events := s.events ++ [OrchEvent.completed] }

theorem wavScaleSample_eq_spec (x : ℚ) : wavScaleSample x = specScalePolicy x := rfl

theorem clamp_mem (x : ℚ) : -1 ≤ max (-1) (min 1 x) ∧ max (-1) (min 1 x) ≤ 1 :=
  ⟨le_max_left _ _, max_le (by norm_num) (min_le_left _ _)⟩

theorem wavScaleSample_bounds (x : ℚ) :
    -32768 ≤ wavScaleSample x ∧ wavScaleSample x ≤ 32767 := by
  obtain ⟨hlo, hhi⟩ := clamp_mem x
  unfold wavScaleSample
  set c := max (-1) (min 1 x) with hc
  by_cases h : c < 0
  · simp only [h, if_true]
    constructor
    · nlinarith
    · nlinarith
  · simp only [h, if_false]
    push_neg at h
    constructor
    · nlinarith
    · nlinarith

theorem ratTrunc_bounds {x : ℚ} {a b : ℤ} (ha : (a : ℚ) ≤ x) (hb : x ≤ (b : ℚ)) :
    a ≤ ratTrunc x ∧ ratTrunc x ≤ b := by
  unfold ratTrunc
  by_cases h : 0 ≤ x
  · simp only [h, if_true]
    refine ⟨Int.le_floor.mpr ha, ?_⟩
    have hf := Int.floor_le_floor (α := ℚ) hb
    simpa using hf
  · simp only [h, if_false]
    refine ⟨?_, Int.ceil_le.mpr hb⟩
    have hc := Int.ceil_le_ceil (α := ℚ) ha
    simpa using hc

theorem decodeInt16_toInt16Bytes (v : ℚ) (hlo : -32768 ≤ ratTrunc v)
    (hhi : ratTrunc v ≤ 32767) : decodeInt16 (toInt16Bytes v) = ratTrunc v := by
  simp only [decodeInt16, toInt16Bytes, List.getD_cons_zero, List.getD_cons_succ]
  omega

/-- C1: for every input buffer, WAV encoding converts each float sample by
first clamping it to [-1, 1] and then scaling — a sample < 0 by 32768, a
sample ≥ 0 by 32767 — before writing it as a little-endian int16: the two data
bytes of each sample decode (as a little-endian two's-complement int16) to the
truncation of the spec's clamp-and-scale policy, always in int16 range, and
the whole `data` section is the per-frame channel interleaving of exactly
these per-sample encodings. -/
theorem C1_wav_scaling_policy :
    (∀ x : ℚ, decodeInt16 (wavSampleBytes x) = ratTrunc (specScalePolicy x)
      ∧ -32768 ≤ decodeInt16 (wavSampleBytes x)
      ∧ decodeInt16 (wavSampleBytes x) ≤ 32767)
    ∧ ∀ channels : List (List ℚ), wavDataBytes channels =
        (List.range (channels.headD []).length).flatMap (fun i =>
          channels.flatMap (fun ch => toInt16Bytes (specScalePolicy (ch.getD i 0)))) := by
  have key : ∀ x : ℚ, decodeInt16 (wavSampleBytes x) = ratTrunc (specScalePolicy x) := by
    intro x
    obtain ⟨h1, h2⟩ := wavScaleSample_bounds x
    obtain ⟨h3, h4⟩ := ratTrunc_bounds (a := -32768) (b := 32767)
      (by exact_mod_cast h1) (by exact_mod_cast h2)
    rw [wavSampleBytes, ← wavScaleSample_eq_spec]
    exact decodeInt16_toInt16Bytes _ h3 h4
  refine ⟨fun x => ⟨key x, ?_, ?_⟩, fun channels => rfl⟩
  · rw [key x, ← wavScaleSample_eq_spec]
    obtain ⟨h1, h2⟩ := wavScaleSample_bounds x
    exact (ratTrunc_bounds (a := -32768) (b := 32767)
      (by exact_mod_cast h1) (by exact_mod_cast h2)).1
  · rw [key x, ← wavScaleSample_eq_spec]
    obtain ⟨h1, h2⟩ := wavScaleSample_bounds x
    exact (ratTrunc_bounds (a := -32768) (b := 32767)
      (by exact_mod_cast h1) (by exact_mod_cast h2)).2

theorem arrSet_size (a : Array ℚ) (i : ℤ) (v : ℚ) : (arrSet a i v).size = a.size := by
  unfold arrSet
  split
  · exact Array.size_setD a i.toNat v
  · rfl

theorem foldl_size_preserved {α : Type} (g : Array ℚ → α → Array ℚ)
    (h : ∀ a x, (g a x).size = a.size) :
    ∀ (l : List α) (a : Array ℚ), (l.foldl g a).size = a.size := by
  intro l
  induction l with
  | nil => intro a; rfl
  | cons x xs ih => intro a; rw [List.foldl_cons, ih, h]

theorem wsewBody_size (input : List ℚ) (rate : ℚ) (hop sr ws ol : ℤ) (st : WsewState) :
    (wsewBody input rate hop sr ws ol st).out.size = st.out.size := by
  unfold wsewBody
  rw [foldl_size_preserved _ (fun a i => arrSet_size a _ _),
    foldl_size_preserved _ (fun a i => arrSet_size a _ _)]

theorem wsewLoop_size (input : List ℚ) (rate : ℚ) (hop sr ws ol : ℤ) :
    ∀ (fuel : ℕ) (st : WsewState),
      (wsewLoop input rate hop sr ws ol fuel st).out.size = st.out.size := by
  intro fuel
  induction fuel with
  | zero => intro st; rfl
  | succ n ih =>
    intro st
    unfold wsewLoop
    split
    · rw [ih, wsewBody_size]
    · rfl

theorem timeStretchWSEW_size (input : List ℚ) (rate : ℚ) (sr : ℕ) :
    (timeStretchWSEW input rate sr).size =
      (jsRound ((input.length : ℚ) / rate)).toNat := by
  simp only [timeStretchWSEW]
  have h1 : ∀ (a : Array ℚ) (i : ℤ), (arrSet a i (listGet input i)).size = a.size :=
    fun a i => arrSet_size a i _
  split
  · rw [foldl_size_preserved _ (fun a i => by
      split
      · exact arrSet_size a _ _
      · rfl), wsewLoop_size]
    dsimp only
    rw [foldl_size_preserved _ h1]
    exact Array.size_mkArray _ _
  · rw [wsewLoop_size]
    dsimp only
    rw [foldl_size_preserved _ h1]
    exact Array.size_mkArray _ _

/-- C3: for every finite rate r > 0 and every input of length L, the array
returned by the time stretcher has length round(L / r) within ±1 (in fact
exactly: the output typed array is allocated with that size and never
reallocated). -/
theorem C3_stretch_output_length (input : List ℚ) (rate : ℚ) (sr : ℕ)
    (h : 0 < rate) :
    |((timeStretchWSEW input rate sr).size : ℤ) -
      jsRound ((input.length : ℚ) / rate)| ≤ 1 := by
  rw [timeStretchWSEW_size]
  have hnn : (0 : ℚ) ≤ (input.length : ℚ) / rate :=
    div_nonneg (Nat.cast_nonneg _) (le_of_lt h)
  have hr : 0 ≤ jsRound ((input.length : ℚ) / rate) := by
    unfold jsRound
    exact Int.le_floor.mpr (by push_cast; linarith)
  rw [Int.toNat_of_nonneg hr]
  simp

theorem C3_stretch_output_length_witness :
    (0 : ℚ) < 2 ∧
      |((timeStretchWSEW [1, 2, 3] 2 8000).size : ℤ) -
        jsRound (((3 : ℕ) : ℚ) / 2)| ≤ 1 := by
  refine ⟨by norm_num, ?_⟩
  have h := C3_stretch_output_length [1, 2, 3] 2 8000 (by norm_num)
  simpa using h

/-- C2: for every sample array and sample rate, calling stretch with a rate
that is ≤ 0 or non-finite behaves as if the rate were 1.0: the segment is
passed through as an unchanged copy of the same length (the sanitisation
`Number.isFinite(rate) && rate > 0 ? rate : 1` maps such a rate to 1, and a
rate of 1 takes the copy-through branch). -/
theorem C2_stretch_bad_rate_passthrough (seg : List ℚ) (rawRate : JsNum) (sr : ℕ)
    (h : rawRate.isFinite = false ∨ ∃ q, rawRate = .fin q ∧ q ≤ 0) :
    processSpeedSegment seg rawRate sr = seg ∧
      processSpeedSegment seg rawRate sr = processSpeedSegment seg (.fin 1) sr ∧
      (processSpeedSegment seg rawRate sr).length = seg.length := by
  have hs : sanitizeRate rawRate = 1 := by
    cases rawRate with
    | fin q =>
      rcases h with h | ⟨q', hq', hle⟩
      · simp [JsNum.isFinite] at h
      · cases hq'
        simp [sanitizeRate, not_lt_of_le hle]
    | posInf => rfl
    | negInf => rfl
    | nan => rfl
  have h1 : processSpeedSegment seg rawRate sr = seg := by
    unfold processSpeedSegment
    rw [hs]
    simp
  have h2 : processSpeedSegment seg (.fin 1) sr = seg := by
    unfold processSpeedSegment
    simp [sanitizeRate]
  exact ⟨h1, h1.trans h2.symm, by rw [h1]⟩

theorem C2_stretch_bad_rate_passthrough_witness :
    ((JsNum.fin (-2)).isFinite = false ∨
      ∃ q, JsNum.fin (-2) = JsNum.fin q ∧ q ≤ 0) ∧
    processSpeedSegment [1, 2, 3] (JsNum.fin (-2)) 8000 = [1, 2, 3] := by
  have hh : (JsNum.fin (-2)).isFinite = false ∨
      ∃ q, JsNum.fin (-2) = JsNum.fin q ∧ q ≤ 0 :=
    Or.inr ⟨-2, rfl, by norm_num⟩
  exact ⟨hh, (C2_stretch_bad_rate_passthrough [1, 2, 3] (JsNum.fin (-2)) 8000 hh).1⟩

theorem intRange_cons (s e : ℤ) (h : s ≤ e) : intRange s e = s :: intRange (s + 1) e := by
  unfold intRange
  have hn : (e + 1 - s).toNat = (e + 1 - (s + 1)).toNat + 1 := by omega
  rw [hn, List.range_succ_eq_map, List.map_cons, List.map_map]
  congr 1
  · norm_num
  · apply List.map_congr_left
    intro a _
    simp only [Function.comp_apply]
    push_cast
    ring

theorem mem_intRange {s e c : ℤ} : c ∈ intRange s e ↔ s ≤ c ∧ c ≤ e := by
  unfold intRange
  simp only [List.mem_map, List.mem_range]
  constructor
  · rintro ⟨i, hi, rfl⟩
    omega
  · rintro ⟨h1, h2⟩
    exact ⟨(c - s).toNat, by omega, by omega⟩

theorem intRange_pairwise (s e : ℤ) : (intRange s e).Pairwise (· < ·) := by
  unfold intRange
  refine List.Pairwise.map _ (fun a b hab => ?_) (List.pairwise_lt_range _)
  omega

theorem fbLoop_spec (score : ℤ → ℚ) :
    ∀ (l : List ℤ) (b : ℤ), l.Pairwise (· < ·) → (∀ c ∈ l, b < c) →
    ∃ r : ℤ × Option ℚ, l.foldl (fbStep score) (b, some (score b)) = r ∧
      r.2 = some (score r.1) ∧
      (r = (b, some (score b)) ∨ (r.1 ∈ l ∧ score b < score r.1)) ∧
      (∀ c ∈ l, score c ≤ score r.1) ∧
      (∀ c ∈ l, score c = score r.1 → r.1 ≤ c) := by
  intro l
  induction l with
  | nil =>
    intro b _ _
    exact ⟨(b, some (score b)), rfl, rfl, Or.inl rfl, by simp, by simp⟩
  | cons c l ih =>
    intro b hpw hlt
    rw [List.foldl_cons]
    by_cases h : score b < score c
    · have hstep : fbStep score (b, some (score b)) c = (c, some (score c)) := by
        unfold fbStep beats
        simp [h]
      rw [hstep]
      obtain ⟨r, hr, h2, h3, h4, h5⟩ :=
        ih c hpw.of_cons (fun d hd => (List.pairwise_cons.mp hpw).1 d hd)
      have hcr : score c ≤ score r.1 := by
        rcases h3 with h3 | ⟨_, h3⟩
        · rw [h3]
        · exact le_of_lt h3
      refine ⟨r, hr, h2, ?_, ?_, ?_⟩
      · rcases h3 with h3 | ⟨hm, hs⟩
        · exact Or.inr ⟨by rw [h3]; exact List.mem_cons_self c l, by rw [h3]; exact h⟩
        · exact Or.inr ⟨List.mem_cons_of_mem c hm, lt_trans h hs⟩
      · intro d hd
        rcases List.mem_cons.mp hd with rfl | hd
        · exact hcr
        · exact h4 d hd
      · intro d hd heq
        rcases List.mem_cons.mp hd with rfl | hd
        · rcases h3 with h3 | ⟨_, hs⟩
          · rw [h3]
          · exact absurd heq (ne_of_lt hs)
        · exact h5 d hd heq
    · have hstep : fbStep score (b, some (score b)) c = (b, some (score b)) := by
        unfold fbStep beats
        simp [h]
      rw [hstep]
      obtain ⟨r, hr, h2, h3, h4, h5⟩ :=
        ih b hpw.of_cons (fun d hd => hlt d (List.mem_cons_of_mem c hd))
      have hbr : score b ≤ score r.1 := by
        rcases h3 with h3 | ⟨_, h3⟩
        · rw [h3]
        · exact le_of_lt h3
      push_neg at h
      refine ⟨r, hr, h2, ?_, ?_, ?_⟩
      · rcases h3 with h3 | ⟨hm, hs⟩
        · exact Or.inl h3
        · exact Or.inr ⟨List.mem_cons_of_mem c hm, hs⟩
      · intro d hd
        rcases List.mem_cons.mp hd with rfl | hd
        · exact le_trans h hbr
        · exact h4 d hd
      · intro d hd heq
        rcases List.mem_cons.mp hd with rfl | hd
        · have hbe : score b = score r.1 := le_antisymm hbr (heq ▸ h)
          rcases h3 with h3 | ⟨_, hs⟩
          · rw [h3]
            exact le_of_lt (hlt d (List.mem_cons_self d l))
          · exact absurd hbe (ne_of_lt hs)
        · exact h5 d hd heq

/-- C4: in every WSOLA search iteration, the selected input offset attains the
highest correlation score over the candidate range, and among candidates that
tie at the maximal score the lowest offset is selected (ascending scan with a
strictly-greater-than replacement test). Stated for the search loop
`findBestOffset` used by `timeStretchWSEW`, over an arbitrary score function,
which covers every iteration of the while loop. -/
theorem C4_wsola_search_argmax (s e : ℤ) (score : ℤ → ℚ) (hse : s ≤ e) :
    (s ≤ findBestOffset s e score ∧ findBestOffset s e score ≤ e) ∧
    (∀ c, s ≤ c → c ≤ e → score c ≤ score (findBestOffset s e score)) ∧
    (∀ c, s ≤ c → c ≤ e → score c = score (findBestOffset s e score) →
      findBestOffset s e score ≤ c) := by
  unfold findBestOffset
  rw [intRange_cons s e hse, List.foldl_cons]
  have hstep : fbStep score ((0 : ℤ), (none : Option ℚ)) s = (s, some (score s)) := by
    unfold fbStep beats
    simp
  rw [hstep]
  obtain ⟨r, hr, _h2, h3, h4, h5⟩ := fbLoop_spec score (intRange (s + 1) e) s
    (intRange_pairwise (s + 1) e)
    (fun c hc => by have := (mem_intRange.mp hc).1; omega)
  rw [hr]
  have hsr : score s ≤ score r.1 := by
    rcases h3 with h3 | ⟨_, h3⟩
    · rw [h3]
    · exact le_of_lt h3
  refine ⟨?_, ?_, ?_⟩
  · rcases h3 with h3 | ⟨hm, _⟩
    · rw [h3]
      exact ⟨le_refl s, hse⟩
    · have := mem_intRange.mp hm
      omega
  · intro c hc1 hc2
    rcases eq_or_lt_of_le hc1 with rfl | hlt'
    · exact hsr
    · exact h4 c (mem_intRange.mpr ⟨by omega, hc2⟩)
  · intro c hc1 hc2 heq
    rcases eq_or_lt_of_le hc1 with rfl | hlt'
    · rcases h3 with h3 | ⟨_, hs⟩
      · rw [h3]
      · exact absurd (heq.symm) (ne_of_gt hs)
    · exact h5 c (mem_intRange.mpr ⟨by omega, hc2⟩) heq

theorem C4_wsola_search_argmax_witness :
    (-1 : ℤ) ≤ 3 ∧
    (((-1 : ℤ) ≤ findBestOffset (-1) 3 (fun _ => 0) ∧
        findBestOffset (-1) 3 (fun _ => 0) ≤ 3) ∧
      (∀ c : ℤ, -1 ≤ c → c ≤ 3 →
        (fun _ => (0 : ℚ)) c ≤ (fun _ => (0 : ℚ)) (findBestOffset (-1) 3 (fun _ => 0))) ∧
      (∀ c : ℤ, -1 ≤ c → c ≤ 3 →
        (fun _ => (0 : ℚ)) c = (fun _ => (0 : ℚ)) (findBestOffset (-1) 3 (fun _ => 0)) →
        findBestOffset (-1) 3 (fun _ => 0) ≤ c)) :=
  ⟨by norm_num, C4_wsola_search_argmax (-1) 3 (fun _ => 0) (by norm_num)⟩

theorem sanitizeRate_pos (r : JsNum) : 0 < sanitizeRate r := by
  cases r with
  | fin q =>
    by_cases h : 0 < q
    · simp [sanitizeRate, h]
    · simp [sanitizeRate, h]
  | posInf => norm_num [sanitizeRate]
  | negInf => norm_num [sanitizeRate]
  | nan => norm_num [sanitizeRate]

theorem rest_start_ge (w : SpeedXform) (rest : List SpeedXform)
    (hsort : (w :: rest).Pairwise (fun a b => a.startSec ≤ b.startSec))
    (hno : (w :: rest).Pairwise
      (fun a b => a.endSec ≤ b.startSec ∨ b.endSec ≤ a.startSec))
    (hwf : ∀ x ∈ w :: rest, x.startSec ≤ x.endSec) :
    ∀ x ∈ rest, w.endSec ≤ x.startSec ∨ x.startSec = x.endSec := by
  intro x hx
  have h_no := (List.pairwise_cons.mp hno).1 x hx
  have h_sorted := (List.pairwise_cons.mp hsort).1 x hx
  have h_wx := hwf x (List.mem_cons_of_mem w hx)
  rcases h_no with he | hd
  · exact Or.inl he
  · exact Or.inr (le_antisymm h_wx (by linarith))

theorem mapTimeGo_lb :
    ∀ (l : List SpeedXform) (c t offset : ℚ),
      l.Pairwise (fun a b => a.startSec ≤ b.startSec) →
      l.Pairwise (fun a b => a.endSec ≤ b.startSec ∨ b.endSec ≤ a.startSec) →
      (∀ w ∈ l, w.startSec ≤ w.endSec) →
      (∀ w ∈ l, c ≤ w.startSec ∨ w.startSec = w.endSec) →
      c ≤ t → offset + c ≤ mapTimeGo t offset l := by
  intro l
  induction l with
  | nil =>
    intro c t offset _ _ _ _ hct
    simp only [mapTimeGo]
    linarith
  | cons w rest ih =>
    intro c t offset hsort hno hwf hge hct
    have hw : w.startSec ≤ w.endSec := hwf w (List.mem_cons_self w rest)
    have hr : 0 < sanitizeRate w.rate := sanitizeRate_pos w.rate
    have hcs_or := hge w (List.mem_cons_self w rest)
    simp only [mapTimeGo, min_eq_left hw, max_eq_right hw]
    split_ifs with h1 h2
    · linarith
    · push_neg at h1
      rcases hcs_or with hcs | hdeg
      · have hdiv : 0 ≤ (t - w.startSec) / sanitizeRate w.rate :=
          div_nonneg (by linarith) (le_of_lt hr)
        linarith
      · linarith
    · push_neg at h1 h2
      have hge_rest : ∀ x ∈ rest, max c w.endSec ≤ x.startSec ∨
          x.startSec = x.endSec := by
        intro x hx
        have h_e := rest_start_ge w rest hsort hno hwf x hx
        have h_c := hge x (List.mem_cons_of_mem w hx)
        rcases h_c with hc' | hdeg'
        · rcases h_e with he' | hdeg'
          · exact Or.inl (max_le hc' he')
          · exact Or.inr hdeg'
        · exact Or.inr hdeg'
      have hIH := ih (max c w.endSec) t
        (offset + w.startSec + (w.endSec - w.startSec) / sanitizeRate w.rate - w.endSec)
        hsort.of_cons hno.of_cons
        (fun x hx => hwf x (List.mem_cons_of_mem w hx)) hge_rest
        (max_le hct (le_of_lt h2))
      have hdiv : 0 ≤ (w.endSec - w.startSec) / sanitizeRate w.rate :=
        div_nonneg (by linarith) (le_of_lt hr)
      rcases le_total c w.endSec with hce | hec
      · rw [max_eq_right hce] at hIH
        rcases hcs_or with hcs | hdeg
        · linarith
        · have hz : (w.endSec - w.startSec) / sanitizeRate w.rate = 0 := by
            rw [show w.endSec - w.startSec = 0 by linarith]
            exact zero_div _
          linarith
      · rw [max_eq_left hec] at hIH
        rcases hcs_or with hcs | hdeg
        · have hse : w.startSec = w.endSec := le_antisymm hw (by linarith)
          have hz : (w.endSec - w.startSec) / sanitizeRate w.rate = 0 := by
            rw [show w.endSec - w.startSec = 0 by linarith]
            exact zero_div _
          linarith
        · have hz : (w.endSec - w.startSec) / sanitizeRate w.rate = 0 := by
            rw [show w.endSec - w.startSec = 0 by linarith]
            exact zero_div _
          linarith

theorem mapTimeGo_mono :
    ∀ (l : List SpeedXform) (t1 t2 offset : ℚ),
      l.Pairwise (fun a b => a.startSec ≤ b.startSec) →
      l.Pairwise (fun a b => a.endSec ≤ b.startSec ∨ b.endSec ≤ a.startSec) →
      (∀ w ∈ l, w.startSec ≤ w.endSec) →
      t1 ≤ t2 → mapTimeGo t1 offset l ≤ mapTimeGo t2 offset l := by
  intro l
  induction l with
  | nil =>
    intro t1 t2 offset _ _ _ h12
    simp only [mapTimeGo]
    linarith
  | cons w rest ih =>
    intro t1 t2 offset hsort hno hwf h12
    have hw : w.startSec ≤ w.endSec := hwf w (List.mem_cons_self w rest)
    have hr : 0 < sanitizeRate w.rate := sanitizeRate_pos w.rate
    have hlbE : ∀ off : ℚ, w.endSec < t2 →
        off + w.endSec ≤ mapTimeGo t2 off rest := by
      intro off ht2
      exact mapTimeGo_lb rest w.endSec t2 off hsort.of_cons hno.of_cons
        (fun x hx => hwf x (List.mem_cons_of_mem w hx))
        (fun x hx => rest_start_ge w rest hsort hno hwf x hx)
        (le_of_lt ht2)
    simp only [mapTimeGo, min_eq_left hw, max_eq_right hw]
    split_ifs with h1 h2 h3 h4 h5 h6 h7 h8
    · linarith
    · push_neg at h2
      have hdiv : 0 ≤ (t2 - w.startSec) / sanitizeRate w.rate :=
        div_nonneg (by linarith) (le_of_lt hr)
      linarith
    · push_neg at h2 h3
      have h := hlbE
        (offset + w.startSec + (w.endSec - w.startSec) / sanitizeRate w.rate - w.endSec) h3
      have hdiv : 0 ≤ (w.endSec - w.startSec) / sanitizeRate w.rate :=
        div_nonneg (by linarith) (le_of_lt hr)
      linarith
    · push_neg at h1
      linarith
    · push_neg at h1 h5
      have hmono : (t1 - w.startSec) / sanitizeRate w.rate ≤
          (t2 - w.startSec) / sanitizeRate w.rate :=
        (div_le_div_iff_of_pos_right hr).mpr (by linarith)
      linarith
    · push_neg at h1 h5 h6
      have h := hlbE
        (offset + w.startSec + (w.endSec - w.startSec) / sanitizeRate w.rate - w.endSec) h6
      have hmono : (t1 - w.startSec) / sanitizeRate w.rate ≤
          (w.endSec - w.startSec) / sanitizeRate w.rate :=
        (div_le_div_iff_of_pos_right hr).mpr (by linarith)
      linarith
    · push_neg at h1 h4
      linarith
    · push_neg at h1 h4 h7
      linarith
    · exact ih t1 t2 _ hsort.of_cons hno.of_cons
        (fun x hx => hwf x (List.mem_cons_of_mem w hx)) h12

theorem sortSpeeds_sorted (l : List SpeedXform) :
    (sortSpeeds l).Pairwise (fun a b => a.startSec ≤ b.startSec) := by
  unfold sortSpeeds
  have h : (l.mergeSort (fun a b => decide (a.startSec ≤ b.startSec))).Pairwise
      (fun a b => decide (a.startSec ≤ b.startSec) = true) :=
    List.sorted_mergeSort
      (fun a b c hab hbc => by
        simp only [decide_eq_true_eq] at hab hbc ⊢
        linarith)
      (fun a b => by simp [le_total]) l
  exact h.imp (fun hab => by simpa using hab)

theorem sortSpeeds_perm (l : List SpeedXform) : List.Perm (sortSpeeds l) l :=
  List.mergeSort_perm l _

/-- C5: for every list of Speed transforms whose time windows are
non-overlapping (well-formed `[startSec, endSec]` windows that at most touch)
and whose rates are positive and finite, the cross-timeline mapping
`mapTimeThroughMultipleSpeeds` is monotonically non-decreasing. -/
theorem C5_mapTime_monotone (l : List SpeedXform)
    (hwf : ∀ w ∈ l, w.startSec ≤ w.endSec)
    (_hrate : ∀ w ∈ l, ∃ q, w.rate = JsNum.fin q ∧ 0 < q)
    (hno : l.Pairwise (fun a b => a.endSec ≤ b.startSec ∨ b.endSec ≤ a.startSec))
    (t1 t2 : ℚ) (h12 : t1 ≤ t2) :
    mapTimeThroughMultipleSpeeds t1 l ≤ mapTimeThroughMultipleSpeeds t2 l := by
  unfold mapTimeThroughMultipleSpeeds
  split_ifs with h
  · exact h12
  · exact mapTimeGo_mono (sortSpeeds l) t1 t2 0 (sortSpeeds_sorted l)
      ((List.Perm.pairwise_iff (fun {x y} hxy => hxy.symm)
        (sortSpeeds_perm l).symm).mp hno)
      (fun w hw => hwf w ((sortSpeeds_perm l).mem_iff.mp hw))
      h12

theorem C5_mapTime_monotone_witness :
    (∀ w ∈ [SpeedXform.mk 0 1 (JsNum.fin 2), SpeedXform.mk 2 3 (JsNum.fin (1/2))],
      w.startSec ≤ w.endSec) ∧
    (∀ w ∈ [SpeedXform.mk 0 1 (JsNum.fin 2), SpeedXform.mk 2 3 (JsNum.fin (1/2))],
      ∃ q, w.rate = JsNum.fin q ∧ 0 < q) ∧
    ([SpeedXform.mk 0 1 (JsNum.fin 2), SpeedXform.mk 2 3 (JsNum.fin (1/2))].Pairwise
      (fun a b => a.endSec ≤ b.startSec ∨ b.endSec ≤ a.startSec)) ∧
    ((1 : ℚ)/2 ≤ 4) ∧
    mapTimeThroughMultipleSpeeds (1/2)
        [SpeedXform.mk 0 1 (JsNum.fin 2), SpeedXform.mk 2 3 (JsNum.fin (1/2))] ≤
      mapTimeThroughMultipleSpeeds 4
        [SpeedXform.mk 0 1 (JsNum.fin 2), SpeedXform.mk 2 3 (JsNum.fin (1/2))] := by
  have hwf : ∀ w ∈ [SpeedXform.mk 0 1 (JsNum.fin 2),
      SpeedXform.mk 2 3 (JsNum.fin (1/2))], w.startSec ≤ w.endSec := by
    intro w hw
    fin_cases hw <;> norm_num
  have hrate : ∀ w ∈ [SpeedXform.mk 0 1 (JsNum.fin 2),
      SpeedXform.mk 2 3 (JsNum.fin (1/2))], ∃ q, w.rate = JsNum.fin q ∧ 0 < q := by
    intro w hw
    fin_cases hw
    · exact ⟨2, rfl, by norm_num⟩
    · exact ⟨1/2, rfl, by norm_num⟩
  have hno : [SpeedXform.mk 0 1 (JsNum.fin 2),
      SpeedXform.mk 2 3 (JsNum.fin (1/2))].Pairwise
      (fun a b => a.endSec ≤ b.startSec ∨ b.endSec ≤ a.startSec) := by
    refine List.Pairwise.cons ?_ (List.Pairwise.cons ?_ List.Pairwise.nil)
    · intro b hb
      rw [List.mem_singleton] at hb
      subst hb
      norm_num
    · intro b hb
      exact absurd hb (List.not_mem_nil b)
  exact ⟨hwf, hrate, hno, by norm_num,
    C5_mapTime_monotone _ hwf hrate hno (1/2) 4 (by norm_num)⟩

theorem planChunks_getD (D : ℚ) (n : ℕ) (i : ℕ) (hi : i < n) :
    (planChunks D n).getD i (0, 0) =
      ((i : ℚ) * (D / (n : ℚ)), min (((i : ℚ) + 1) * (D / (n : ℚ))) D) := by
  unfold planChunks
  rw [List.getD_eq_getElem?_getD, List.getElem?_map, List.getElem?_range hi]
  rfl

theorem planChunks_scale_le (D : ℚ) (n : ℕ) (hD : 0 ≤ D) (hn : 1 ≤ n) :
    ∀ i : ℕ, i ≤ n → (i : ℚ) * (D / (n : ℚ)) ≤ D := by
  intro i hi
  have hn0 : ((n : ℚ)) ≠ 0 := Nat.cast_ne_zero.mpr (by omega)
  have hdn : 0 ≤ D / (n : ℚ) := div_nonneg hD (Nat.cast_nonneg n)
  have hcast : (i : ℚ) ≤ (n : ℚ) := Nat.cast_le.mpr hi
  have hfull : (n : ℚ) * (D / (n : ℚ)) = D := by field_simp
  calc (i : ℚ) * (D / (n : ℚ)) ≤ (n : ℚ) * (D / (n : ℚ)) :=
        mul_le_mul_of_nonneg_right hcast hdn
    _ = D := hfull

/-- C6: for every total duration D > 0 and chunk count n ≥ 1, the n planned
chunk windows are contiguous (each window's end equals the next window's
start), non-overlapping (each window's start is ≤ its end), cover [0, D]
exactly (first start 0, last end D, all windows inside [0, D]), and the last
window ends exactly at D. -/
theorem C6_planChunks_cover (D : ℚ) (n : ℕ) (hD : 0 < D) (hn : 1 ≤ n) :
    (planChunks D n).length = n ∧
    (∀ i, i + 1 < n →
      ((planChunks D n).getD i (0, 0)).2 = ((planChunks D n).getD (i + 1) (0, 0)).1) ∧
    ((planChunks D n).getD 0 (0, 0)).1 = 0 ∧
    ((planChunks D n).getD (n - 1) (0, 0)).2 = D ∧
    (∀ w ∈ planChunks D n, w.1 ≤ w.2 ∧ 0 ≤ w.1 ∧ w.2 ≤ D) := by
  have hD' : 0 ≤ D := le_of_lt hD
  have hdn : 0 ≤ D / (n : ℚ) := div_nonneg hD' (Nat.cast_nonneg n)
  refine ⟨?_, ?_, ?_, ?_, ?_⟩
  · unfold planChunks
    rw [List.length_map, List.length_range]
  · intro i hi
    rw [planChunks_getD D n i (by omega), planChunks_getD D n (i + 1) (by omega)]
    have hle : ((i : ℚ) + 1) * (D / (n : ℚ)) ≤ D := by
      have := planChunks_scale_le D n hD' hn (i + 1) (by omega)
      push_cast at this
      linarith
    simp only [min_eq_left hle]
    push_cast
    ring
  · rw [planChunks_getD D n 0 (by omega)]
    norm_num
  · rw [planChunks_getD D n (n - 1) (by omega)]
    have hca : ((n - 1 : ℕ) : ℚ) + 1 = (n : ℚ) := by
      have : (1 : ℕ) ≤ n := hn
      push_cast [Nat.cast_sub this]
      ring
    have hfull : (n : ℚ) * (D / (n : ℚ)) = D := by
      have hn0 : ((n : ℚ)) ≠ 0 := Nat.cast_ne_zero.mpr (by omega)
      field_simp
    simp only [hca, hfull, min_self]
  · intro w hw
    unfold planChunks at hw
    simp only [List.mem_map, List.mem_range] at hw
    obtain ⟨i, hi, rfl⟩ := hw
    have h1 : (i : ℚ) * (D / (n : ℚ)) ≤ ((i : ℚ) + 1) * (D / (n : ℚ)) := by nlinarith
    have h2 : (i : ℚ) * (D / (n : ℚ)) ≤ D := planChunks_scale_le D n hD' hn i (by omega)
    exact ⟨le_min h1 h2, mul_nonneg (Nat.cast_nonneg i) hdn, min_le_right _ _⟩

theorem C6_planChunks_cover_witness :
    (0 : ℚ) < 10 ∧ 1 ≤ 4 ∧
    ((planChunks 10 4).length = 4 ∧
      (∀ i, i + 1 < 4 →
        ((planChunks 10 4).getD i (0, 0)).2 = ((planChunks 10 4).getD (i + 1) (0, 0)).1) ∧
      ((planChunks 10 4).getD 0 (0, 0)).1 = 0 ∧
      ((planChunks 10 4).getD (4 - 1) (0, 0)).2 = 10 ∧
      (∀ w ∈ planChunks 10 4, w.1 ≤ w.2 ∧ 0 ≤ w.1 ∧ w.2 ≤ 10)) :=
  ⟨by norm_num, by norm_num, C6_planChunks_cover 10 4 (by norm_num) (by norm_num)⟩

/-- C7 counterexample: with a requested chunk count of 0 (which is < 1), chunk
planning does not fail with a ValidationError — no error value exists anywhere
on this code path; the loop simply evaluates to an empty window list, and the
start handler sanitises a requested 0 up to 2 instead of rejecting it. -/
theorem C7_no_validation_error_at_zero :
    planChunks 10 0 = [] ∧ sanitizeNumChunks 0 = 2 := by
  constructor
  · rfl
  · norm_num [sanitizeNumChunks]

/-- C7 (amended): chunk planning never fails with a ValidationError; instead
the start handler sanitises any requested finite chunk count to at least 2 via
`Math.max(2, Math.floor(n || 2))`, and for every n ≥ 1 the loop produces n
contiguous windows, each of exact length totalDuration/n, with the last window
clamped so that it ends exactly at totalDuration. -/
theorem C7_chunk_planning_sanitized (raw : ℚ) (D : ℚ) (n : ℕ)
    (hD : 0 ≤ D) (hn : 1 ≤ n) :
    2 ≤ sanitizeNumChunks raw ∧
    (planChunks D n).length = n ∧
    (∀ w ∈ planChunks D n, w.2 - w.1 = D / (n : ℚ)) ∧
    (∀ i, i + 1 < n →
      ((planChunks D n).getD i (0, 0)).2 = ((planChunks D n).getD (i + 1) (0, 0)).1) ∧
    ((planChunks D n).getD (n - 1) (0, 0)).2 = D := by
  refine ⟨le_max_left 2 _, ?_, ?_, ?_, ?_⟩
  · unfold planChunks
    rw [List.length_map, List.length_range]
  · intro w hw
    unfold planChunks at hw
    simp only [List.mem_map, List.mem_range] at hw
    obtain ⟨i, hi, rfl⟩ := hw
    have hle : ((i : ℚ) + 1) * (D / (n : ℚ)) ≤ D := by
      have := planChunks_scale_le D n hD hn (i + 1) (by omega)
      push_cast at this
      linarith
    simp only [min_eq_left hle]
    ring
  · intro i hi
    rw [planChunks_getD D n i (by omega), planChunks_getD D n (i + 1) (by omega)]
    have hle : ((i : ℚ) + 1) * (D / (n : ℚ)) ≤ D := by
      have := planChunks_scale_le D n hD hn (i + 1) (by omega)
      push_cast at this
      linarith
    simp only [min_eq_left hle]
    push_cast
    ring
  · rw [planChunks_getD D n (n - 1) (by omega)]
    have hca : ((n - 1 : ℕ) : ℚ) + 1 = (n : ℚ) := by
      have : (1 : ℕ) ≤ n := hn
      push_cast [Nat.cast_sub this]
      ring
    have hfull : (n : ℚ) * (D / (n : ℚ)) = D := by
      have hn0 : ((n : ℚ)) ≠ 0 := Nat.cast_ne_zero.mpr (by omega)
      field_simp
    simp only [hca, hfull, min_self]

theorem C7_chunk_planning_sanitized_witness :
    (0 : ℚ) ≤ 10 ∧ 1 ≤ 4 ∧
    (2 ≤ sanitizeNumChunks 0 ∧
      (planChunks 10 4).length = 4 ∧
      (∀ w ∈ planChunks 10 4, w.2 - w.1 = 10 / ((4 : ℕ) : ℚ)) ∧
      (∀ i, i + 1 < 4 →
        ((planChunks 10 4).getD i (0, 0)).2 = ((planChunks 10 4).getD (i + 1) (0, 0)).1) ∧
      ((planChunks 10 4).getD (4 - 1) (0, 0)).2 = 10) :=
  ⟨by norm_num, by norm_num, C7_chunk_planning_sanitized 0 10 4 (by norm_num) (by norm_num)⟩

theorem range'_glue (s m len : ℕ) (h1 : s ≤ m) (h2 : m ≤ len) :
    List.range' s (m - s) ++ List.range' m (len - m) = List.range' s (len - s) := by
  have h := List.range'_append s (m - s) (len - m) 1
  simp only [one_mul, mul_one] at h
  rw [show s + (m - s) = m by omega] at h
  rw [h, show len - m + (m - s) = len - s by omega]

theorem chunkCaptionsGo_spec (caps : List Caption) (mn mx : ℤ) :
    ∀ (k i start : ℕ) (cc : ℤ), caps.length - i = k → start ≤ i → i ≤ caps.length →
      ((chunkCaptionsGo caps mn mx i start cc).flatMap
          (fun c => List.range' c.start (c.«end» + 1 - c.start)) =
        List.range' start (caps.length - start)) ∧
      (∀ c ∈ chunkCaptionsGo caps mn mx i start cc, c.start ≤ c.«end») := by
  intro k
  induction k with
  | zero =>
    intro i start cc hk h1 h2
    have hi : i = caps.length := by omega
    subst hi
    rw [chunkCaptionsGo]
    rw [dif_neg (lt_irrefl caps.length)]
    by_cases hs : start < caps.length
    · rw [if_pos hs]
      constructor
      · simp only [List.flatMap_cons, List.flatMap_nil, List.append_nil]
        congr 1
        omega
      · intro c hc
        rw [List.mem_singleton] at hc
        subst hc
        simp only
        omega
    · rw [if_neg hs]
      constructor
      · rw [show caps.length - start = 0 by omega]
        rfl
      · intro c hc
        exact absurd hc (List.not_mem_nil c)
  | succ k ih =>
    intro i start cc hk h1 h2
    have hi : i < caps.length := by omega
    rw [chunkCaptionsGo]
    rw [dif_pos hi]
    simp only
    split_ifs with hsp hcl hcl2
    · obtain ⟨ihA, ihB⟩ := ih (i + 1) (i + 1) 0 (by omega) (le_refl _) (by omega)
      constructor
      · rw [List.flatMap_cons, ihA]
        have hg := range'_glue start (i + 1) caps.length (by omega) (by omega)
        simpa using hg
      · intro c hc
        rcases List.mem_cons.mp hc with rfl | hc
        · exact h1
        · exact ihB c hc
    · exact ih (i + 1) start _ (by omega) (by omega) (by omega)
    · obtain ⟨ihA, ihB⟩ := ih (i + 1) (i + 1) 0 (by omega) (le_refl _) (by omega)
      constructor
      · rw [List.flatMap_cons, ihA]
        have hg := range'_glue start (i + 1) caps.length (by omega) (by omega)
        simpa using hg
      · intro c hc
        rcases List.mem_cons.mp hc with rfl | hc
        · exact h1
        · exact ihB c hc
    · exact ih (i + 1) start _ (by omega) (by omega) (by omega)

/-- C8: for every non-empty caption list and every minChars/maxChars setting,
`chunkCaptionsSimple` returns groups whose inclusive index ranges, concatenated
in order, reconstruct exactly the index sequence 0..len-1 (no gaps, no
overlaps, original order), and no returned group is empty (`start ≤ end` for
every group). -/
theorem C8_caption_groups_partition (caps : List Caption) (mn mx : ℤ)
    (hne : caps ≠ []) :
    ((chunkCaptionsSimple caps mn mx).flatMap
        (fun c => List.range' c.start (c.«end» + 1 - c.start)) =
      List.range caps.length) ∧
    (∀ c ∈ chunkCaptionsSimple caps mn mx, c.start ≤ c.«end») := by
  have hlen : caps.length ≠ 0 := fun h => hne (List.length_eq_zero.mp h)
  unfold chunkCaptionsSimple
  rw [if_neg hlen]
  obtain ⟨hA, hB⟩ := chunkCaptionsGo_spec caps mn mx caps.length 0 0 0 rfl
    (le_refl 0) (Nat.zero_le _)
  refine ⟨?_, hB⟩
  rw [hA, List.range_eq_range', Nat.sub_zero]

theorem C8_caption_groups_partition_witness :
    ([Caption.mk ( "hello.") 0 500 none] : List Caption) ≠ [] ∧
    (((chunkCaptionsSimple [Caption.mk ( "hello.") 0 500 none] 400 600).flatMap
        (fun c => List.range' c.start (c.«end» + 1 - c.start)) =
      List.range ([Caption.mk ( "hello.") 0 500 none] : List Caption).length) ∧
      (∀ c ∈ chunkCaptionsSimple [Caption.mk ( "hello.") 0 500 none] 400 600,
        c.start ≤ c.«end»)) :=
  ⟨by simp, C8_caption_groups_partition [Caption.mk ( "hello.") 0 500 none] 400 600
    (by simp)⟩

/-- C9: attempting to insert a SpeedEdit whose inclusive word-index range
overlaps any existing SpeedEdit's range is rejected (the `hasOverlap` guard
fires and `applySpeedAdjustment` returns before any `set*` call), and no state
mutates: the speed-edit list and the transform list are both unchanged. -/
theorem C9_overlapping_insert_rejected (captionsData : List Caption)
    (selStart : ℕ) (sel : ℕ × ℕ) (mult : ℚ) (newId : String) (st : AppState)
    (hov : ∃ e ∈ st.speedEdits,
      e.startIdx ≤ selStart + sel.2 ∧ selStart + sel.1 ≤ e.endIdx) :
    (applySpeedAdjustment captionsData selStart sel mult newId st).speedEdits =
        st.speedEdits ∧
    (applySpeedAdjustment captionsData selStart sel mult newId st).transforms =
        st.transforms := by
  have hb : hasOverlap st.speedEdits (selStart + sel.1) (selStart + sel.2) none
      = true := by
    obtain ⟨e, he, h1, h2⟩ := hov
    unfold hasOverlap
    rw [List.any_eq_true]
    refine ⟨e, he, ?_⟩
    simp only [Bool.not_eq_true', Bool.or_eq_false_iff, decide_eq_false_iff_not,
      not_lt, not_le]
    omega
  unfold applySpeedAdjustment
  simp only [hb, if_true]
  exact ⟨by trivial, by trivial⟩

theorem C9_overlapping_insert_rejected_witness :
    (∃ e ∈ (AppState.mk [SpeedEdit.mk ( "edit-1") 10 20 2] [] none).speedEdits,
      e.startIdx ≤ 0 + 25 ∧ 0 + 15 ≤ e.endIdx) ∧
    ((applySpeedAdjustment [] 0 (15, 25) 3 ( "edit-2")
        (AppState.mk [SpeedEdit.mk ( "edit-1") 10 20 2] [] none)).speedEdits =
      (AppState.mk [SpeedEdit.mk ( "edit-1") 10 20 2] [] none).speedEdits ∧
    (applySpeedAdjustment [] 0 (15, 25) 3 ( "edit-2")
        (AppState.mk [SpeedEdit.mk ( "edit-1") 10 20 2] [] none)).transforms =
      (AppState.mk [SpeedEdit.mk ( "edit-1") 10 20 2] [] none).transforms) := by
  have hov : ∃ e ∈ (AppState.mk [SpeedEdit.mk ( "edit-1") 10 20 2] []
      none).speedEdits, e.startIdx ≤ 0 + 25 ∧ 0 + 15 ≤ e.endIdx :=
    ⟨SpeedEdit.mk ( "edit-1") 10 20 2, List.mem_singleton.mpr rfl,
      by decide, by decide⟩
  exact ⟨hov, C9_overlapping_insert_rejected [] 0 (15, 25) 3 ( "edit-2") _ hov⟩

/-- C10: once the orchestrator's cancellation flag is set, no further chunk
iteration begins and the completion callback is never invoked: along any
sequence of steps from a cancelled state, the event log never grows (no
`chunkStarted`, no `completed`) and the flag stays set; meanwhile an external
phase already in flight is still allowed to finish (the resample step is
enabled in a cancelled state). -/
theorem C10_cancellation_cooperative (n : ℕ) :
    (∀ s s' : OrchState, s.cancelled = true →
      Relation.ReflTransGen (OrchStep n) s s' →
      s'.events = s.events ∧ s'.cancelled = true) ∧
    (∀ (i : ℕ) (ev : List OrchEvent),
      OrchStep n ⟨true, OrchPC.resampling i, ev⟩
        ⟨true, OrchPC.transcribing i, ev⟩) := by
  constructor
  · intro s s' hc hsteps
    induction hsteps with
    | refl => exact ⟨rfl, hc⟩
    | tail _hab hbc ih =>
      obtain ⟨hev, hcan⟩ := ih
      cases hbc with
      | cancel => exact ⟨hev, rfl⟩
      | loopCheck_cancelled i hpc hflag => exact ⟨hev, hcan⟩
      | loopCheck_start i hpc hflag hlt => rw [hcan] at hflag; cases hflag
      | loopCheck_exit i hpc hflag hlt => exact ⟨hev, hcan⟩
      | resample_done i hpc => exact ⟨hev, hcan⟩
      | transcribe_done i hpc => exact ⟨hev, hcan⟩
      | finalize_cancelled hpc hflag => exact ⟨hev, hcan⟩
      | finalize_complete hpc hflag => rw [hcan] at hflag; cases hflag
  · intro i ev
    exact OrchStep.resample_done ⟨true, OrchPC.resampling i, ev⟩ i rfl

theorem C10_cancellation_cooperative_witness :
    (⟨true, OrchPC.loopCheck 0, []⟩ : OrchState).cancelled = true ∧
    ((⟨true, OrchPC.done, []⟩ : OrchState).events =
        (⟨true, OrchPC.loopCheck 0, []⟩ : OrchState).events ∧
      (⟨true, OrchPC.done, []⟩ : OrchState).cancelled = true) :=
  ⟨rfl, (C10_cancellation_cooperative 3).1
    ⟨true, OrchPC.loopCheck 0, []⟩ ⟨true, OrchPC.done, []⟩ rfl
    (Relation.ReflTransGen.single
      (OrchStep.loopCheck_cancelled ⟨true, OrchPC.loopCheck 0, []⟩ 0 rfl rfl))⟩
